import Mathlib

/-
Verification of the http-cache repository: a shallow embedding of the cache
middleware (cache.go), its key generator, the entry codec, and the in-memory
store adapter (adapter/memory/memory.go), together with proofs about the
behaviour claimed in the specification.

Modelling conventions:
  * Go `time.Time` values are modelled as `Int` (offset from the zero time;
    `t1.Before t2` is `t1 < t2`, `t1.After t2` is `t1 < t2` flipped,
    `time.Time{}` is `0`).
  * Byte strings (`[]byte`) are modelled as `List Int` of abstract tokens;
    `len` is `List.length`.
  * The gob wire format used by `Response.Bytes` / `BytesToResponse` is an
    external library. Modelled from the spec: a self-describing,
    length-prefixed serialization of all five entry fields, where decoding
    malformed bytes yields a zero-value entry.
  * Go maps (`map[uint64][]byte`) are modelled as association lists together
    with a no-duplicate-keys hypothesis where it matters. The iteration order
    of a Go map is unspecified; the association-list order stands for the
    order in which a particular range loop encounters the entries.
  * `time.Now()` is passed explicitly as a `now : Int` argument to every
    operation that reads the clock.
-/

/-- Cached response data structure (cache.go `Response`). -/
structure Response where
  Value : List Int
  Header : List (String × List String)
  Expiration : Int
  LastAccess : Int
  Frequency : Int
deriving DecidableEq

/-- Zero value of `Response`, produced by a failed gob decode. -/
def zeroResponse : Response :=
  { Value := [], Header := [], Expiration := 0, LastAccess := 0, Frequency := 0 }

/-- Encoding of one string: length prefix followed by the character codes. -/
def encStr (s : String) : List Int :=
  (s.length : Int) :: s.data.map (fun c => (c.toNat : Int))

/-- Encoding of a list of strings: length prefix followed by the encodings. -/
def encStrList (l : List String) : List Int :=
  (l.length : Int) :: l.flatMap encStr

/-- Encoding of one header entry: name followed by the value list. -/
def encHeaderPair (p : String × List String) : List Int :=
  encStr p.1 ++ encStrList p.2

/-- Encoding of a header map: length prefix followed by the entries. -/
def encHeader (h : List (String × List String)) : List Int :=
  (h.length : Int) :: h.flatMap encHeaderPair

/-- Response.Bytes (cache.go): serialize a `Response` into an opaque payload.
Modelled from the spec: stands for the gob encoding, §6 wire format. -/
def Response.bytes (r : Response) : List Int :=
  ((r.Value.length : Int) :: r.Value)
    ++ encHeader r.Header
    ++ [r.Expiration, r.LastAccess, r.Frequency]

/-- Parse a natural-number token (length prefixes, counters). -/
def parseNat : List Int → Option (Nat × List Int)
  | i :: rest => if 0 ≤ i then some (i.toNat, rest) else none
  | [] => none

/-- Parse one raw token. -/
def parseTok : List Int → Option (Int × List Int)
  | i :: rest => some (i, rest)
  | [] => none

/-- Parse `n` raw tokens. -/
def parseToks : Nat → List Int → Option (List Int × List Int)
  | 0, l => some ([], l)
  | n + 1, i :: rest => (parseToks n rest).map (fun p => (i :: p.1, p.2))
  | _ + 1, [] => none

/-- Parse one string. -/
def parseStr (l : List Int) : Option (String × List Int) := do
  let (n, l1) ← parseNat l
  let (ts, l2) ← parseToks n l1
  some (String.mk (ts.map (fun i => Char.ofNat i.toNat)), l2)

/-- Parse `n` strings. -/
def parseStrList : Nat → List Int → Option (List String × List Int)
  | 0, l => some ([], l)
  | n + 1, l => do
    let (s, l1) ← parseStr l
    let (ss, l2) ← parseStrList n l1
    some (s :: ss, l2)

/-- Parse one header entry. -/
def parseHeaderPair (l : List Int) : Option ((String × List String) × List Int) := do
  let (k, l1) ← parseStr l
  let (n, l2) ← parseNat l1
  let (vs, l3) ← parseStrList n l2
  some ((k, vs), l3)

/-- Parse `n` header entries. -/
def parseHeader : Nat → List Int → Option (List (String × List String) × List Int)
  | 0, l => some ([], l)
  | n + 1, l => do
    let (p, l1) ← parseHeaderPair l
    let (ps, l2) ← parseHeader n l1
    some (p :: ps, l2)

/-- Parse a full `Response` payload. -/
def parseResponse (l : List Int) : Option (Response × List Int) := do
  let (n, l1) ← parseNat l
  let (val, l2) ← parseToks n l1
  let (hn, l3) ← parseNat l2
  let (hdr, l4) ← parseHeader hn l3
  let (e, l5) ← parseTok l4
  let (la, l6) ← parseTok l5
  let (fr, l7) ← parseTok l6
  some ({ Value := val, Header := hdr, Expiration := e, LastAccess := la, Frequency := fr }, l7)

/-- BytesToResponse (cache.go): decode an opaque payload into a `Response`;
a failed decode leaves the zero value in place (the Go code ignores the
`Decode` error). -/
def BytesToResponse (b : List Int) : Response :=
  match parseResponse b with
  | some (r, _) => r
  | none => zeroResponse

/-- Caching algorithm labels (adapter/memory/memory.go `Algorithm`). -/
inductive Algorithm where
  | LRU
  | MRU
  | LFU
  | MFU
deriving DecidableEq

/-- The key to bytes map of the memory adapter (`map[uint64][]byte`), as an
association list; the list order stands for a range-loop encounter order. -/
abbrev Store := List (Nat × List Int)

/-- Go map read `a.store[key]`. -/
def storeGet : Store → Nat → Option (List Int)
  | [], _ => none
  | (k, v) :: rest, key => if k = key then some v else storeGet rest key

/-- Go map write `a.store[key] = v` for a key already present. -/
def storeReplace (st : Store) (key : Nat) (v : List Int) : Store :=
  st.map (fun e => if e.1 = key then (key, v) else e)

/-- Go map write `a.store[key] = v` for a new key. -/
def storeInsert (st : Store) (key : Nat) (v : List Int) : Store :=
  (key, v) :: st

/-- Go `delete(a.store, key)`. -/
def storeDelete (st : Store) (key : Nat) : Store :=
  st.filter (fun e => !(e.1 = key))

/-- The keys of the store are pairwise distinct (inherent to a Go map). -/
def storeNodup (st : Store) : Prop := (st.map Prod.fst).Nodup

instance (st : Store) : Decidable (storeNodup st) := by
  unfold storeNodup
  infer_instance

/-- Byte-size accounting state (memory.go `storageControl`). -/
structure storageControl where
  max : Int
  cur : Int
deriving DecidableEq

/-- storageControl.active (memory.go). -/
def storageControl.active (s : storageControl) : Bool := s.max > 0

/-- storageControl.add (memory.go). -/
def storageControl.add (s : storageControl) (v : Int) : storageControl :=
  if v ≥ 0 then { s with cur := s.cur + v } else s

/-- storageControl.del (memory.go). -/
def storageControl.del (s : storageControl) (v : Int) : storageControl :=
  if v ≥ 0 then
    if s.cur - v < 0 then { s with cur := 0 } else { s with cur := s.cur - v }
  else s

/-- storageControl.shouldEvict (memory.go): true when the proposed new bytes
plus current exceed the max; never true when no byte budget is tracked. -/
def storageControl.shouldEvict (s : storageControl) (newBytes : Int) : Bool :=
  if s.max ≤ 0 then false
  else if s.cur + newBytes < 0 ∨ s.cur + newBytes > s.max then true
  else false

/-- storageControl.canCache (memory.go). Defined in the source but never
called from `Set`. -/
def storageControl.canCache (s : storageControl) (newBytes : Int) : Bool :=
  if s.max ≤ 0 then true else s.max ≥ newBytes

/-- Memory adapter data structure (memory.go `Adapter`), minus the mutex. -/
structure Adapter where
  capacity : Int
  algorithm : Algorithm
  store : Store
  storage : storageControl
deriving DecidableEq

/-- Accumulator of the eviction scan: the local variables of `Adapter.evict`
(selectedKey, lastAccess, frequency, sz, hit). -/
structure ScanAcc where
  selectedKey : Nat
  lastAccess : Int
  frequency : Int
  sz : Int
  hit : Bool
deriving DecidableEq

/-- LastAccess of a store entry as seen by the eviction scan: the scan decodes
each stored payload with `BytesToResponse` and reads `r.LastAccess`. -/
def laP (e : Nat × List Int) : Int := (BytesToResponse e.2).LastAccess

/-- Frequency of a store entry as seen by the eviction scan: the scan decodes
each stored payload with `BytesToResponse` and reads `r.Frequency`. -/
def frP (e : Nat × List Int) : Int := (BytesToResponse e.2).Frequency

/-- One iteration of the eviction scan loop body (memory.go `evict`); the
switch on the loop-invariant algorithm is written per entry exactly as in the
source, with `laP e` / `frP e` standing for the decoded entry's fields. -/
def evictStep (alg : Algorithm) (acc : ScanAcc) (e : Nat × List Int) : ScanAcc :=
  match alg with
  | .LRU =>
    if laP e < acc.lastAccess then
      { acc with selectedKey := e.1, lastAccess := laP e, sz := (e.2.length : Int), hit := true }
    else acc
  | .MRU =>
    if laP e > acc.lastAccess ∨ laP e = acc.lastAccess then
      { acc with selectedKey := e.1, lastAccess := laP e, sz := (e.2.length : Int), hit := true }
    else acc
  | .LFU =>
    if frP e < acc.frequency then
      { acc with selectedKey := e.1, frequency := frP e, sz := (e.2.length : Int), hit := true }
    else acc
  | .MFU =>
    if frP e ≥ acc.frequency then
      { acc with selectedKey := e.1, frequency := frP e, sz := (e.2.length : Int), hit := true }
    else acc

/-- Initial accumulator of the eviction scan: selectedKey 0, lastAccess
`time.Now()` (the zero time for MRU), frequency 2147483647 (0 for MFU). -/
def scanInit (alg : Algorithm) (now : Int) : ScanAcc :=
  { selectedKey := 0
    lastAccess := if alg = .MRU then 0 else now
    frequency := if alg = .MFU then 0 else 2147483647
    sz := 0
    hit := false }

/-- Adapter.evict (memory.go): scan the whole store for a victim according to
the configured algorithm, then delete the selected key and update the byte
accounting when an entry was selected. -/
def Adapter.evict (a : Adapter) (now : Int) : Adapter :=
  let acc := a.store.foldl (evictStep a.algorithm) (scanInit a.algorithm now)
  { a with
    store := storeDelete a.store acc.selectedKey
    storage := if acc.hit then a.storage.del acc.sz else a.storage }

/-- The byte-budget eviction loop of `Adapter.Set` (memory.go lines 94-97):
`for a.storage.shouldEvict(len(response)) { a.evict() }`. The Go loop has no
intrinsic termination guarantee, so it is modelled with fuel; `none` means the
loop was still running when the fuel ran out. -/
def evictLoop : Nat → Adapter → Int → Int → Option Adapter
  | 0, a, _, n => if a.storage.shouldEvict n then none else some a
  | fuel + 1, a, now, n =>
    if a.storage.shouldEvict n then evictLoop fuel (a.evict now) now n else some a

/-- Adapter.Set (memory.go): overwrite in place for a known key; for a new key
evict once when the store is at entry capacity, then evict in a loop while the
byte budget would be exceeded, then insert and add to the byte accounting.
The `expiration` argument of the Go method is unused by the method body and is
omitted. -/
def Adapter.set (fuel : Nat) (a : Adapter) (key : Nat) (response : List Int) (now : Int) :
    Option Adapter :=
  if (storeGet a.store key).isSome then
    some { a with store := storeReplace a.store key response }
  else
    let a1 := if (a.store.length : Int) = a.capacity then a.evict now else a
    match evictLoop fuel a1 now (response.length : Int) with
    | none => none
    | some a2 =>
      some { a2 with
        store := storeInsert a2.store key response
        storage := a2.storage.add (response.length : Int) }

/-- Adapter.Release (memory.go): delete the key when present and subtract its
payload length from the byte accounting. -/
def Adapter.release (a : Adapter) (key : Nat) : Adapter :=
  match storeGet a.store key with
  | some b => { a with store := storeDelete a.store key, storage := a.storage.del (b.length : Int) }
  | none => a

/-- A sequence of `Set` calls: key, payload and the time of the call. -/
structure SetCall where
  key : Nat
  response : List Int
  now : Int

/-- Apply a sequence of `Set` calls to an adapter. -/
def applyCalls (fuel : Nat) : List SetCall → Adapter → Option Adapter
  | [], a => some a
  | c :: cs, a =>
    match Adapter.set fuel a c.key c.response c.now with
    | none => none
    | some a1 => applyCalls fuel cs a1

/-- FNV-1a 64-bit hash over a byte sequence (hash/fnv, as used by
`generateKey`): offset basis 14695981039346656037, prime 1099511628211,
xor-then-multiply, truncated to 64 bits. -/
def fnv64a (bytes : List Nat) : Nat :=
  bytes.foldl (fun h b => ((h ^^^ b) * 1099511628211) % 18446744073709551616)
    14695981039346656037

/-- Byte sequence of a string (`[]byte(URL)`); character codes, which agree
with the UTF-8 bytes on ASCII input. -/
def stringBytes (s : String) : List Nat := s.data.map Char.toNat

/-- generateKey (cache.go): FNV-1a of the URL string. -/
def generateKey (URL : String) : Nat := fnv64a (stringBytes URL)

/-- generateKeyWithBody (cache.go): FNV-1a of the URL string with the request
body bytes appended. -/
def generateKeyWithBody (URL : String) (body : List Nat) : Nat :=
  fnv64a (stringBytes URL ++ body)

/-- Lexicographic byte-wise comparison of character lists (the order behind
Go's `<` on strings). -/
def charListLe : List Char → List Char → Bool
  | [], _ => true
  | _ :: _, [] => false
  | c :: cs, d :: ds =>
    if c.toNat < d.toNat then true
    else if d.toNat < c.toNat then false
    else charListLe cs ds

/-- Go string comparison `s <= t`. -/
def strLe (s t : String) : Bool := charListLe s.data t.data

/-- The proposition form of `strLe`, used as the sorting relation. -/
def strLeRel (s t : String) : Prop := strLe s t = true

instance : DecidableRel strLeRel := fun s t => by
  unfold strLeRel
  infer_instance

/-- Unreserved characters that `url.QueryEscape` leaves alone. -/
def isUnreserved (c : Char) : Bool :=
  c.isAlphanum || c == '-' || c == '_' || c == '.' || c == '~'

/-- Hex digit for percent-encoding. -/
def hexDigitChar (n : Nat) : Char :=
  if n < 10 then Char.ofNat (48 + n) else Char.ofNat (55 + n)

/-- Escape one character as in `url.QueryEscape`: unreserved characters kept,
space becomes '+', anything else percent-encoded (multi-byte UTF-8 sequences
abstracted to one escape of the character code). -/
def escapeChar (c : Char) : List Char :=
  if isUnreserved c then [c]
  else if c == ' ' then ['+']
  else ['%', hexDigitChar (c.toNat / 16 % 16), hexDigitChar (c.toNat % 16)]

/-- QueryEscape model. -/
def queryEscape (s : String) : String := String.mk (s.data.flatMap escapeChar)

/-- A request URL: path plus the query as the ordered list of key=value
pairs of its raw query string. -/
structure URLQ where
  path : String
  query : List (String × String)
deriving DecidableEq

/-- One key=value pair as rendered by `url.Values.Encode`. -/
def encodeQueryPair (p : String × String) : String :=
  queryEscape p.1 ++ "=" ++ queryEscape p.2

/-- Query string as rendered by `url.Values.Encode` on an already canonical
pair list: pairs joined with '&'. -/
def encodeQuery (q : List (String × String)) : String :=
  String.intercalate "&" (q.map encodeQueryPair)

/-- URL.String(): path, then '?' and the encoded query when non-empty. -/
def urlString (u : URLQ) : String :=
  u.path ++ (if u.query = [] then "" else "?" ++ encodeQuery u.query)

/-- The canonical pair list produced by `url.Values` round-tripping in
sortURLParams (cache.go): `URL.Query()` groups values per parameter name,
`sort.Slice` sorts each value slice, and `Encode` emits the names in sorted
order. -/
def canonQuery (q : List (String × String)) : List (String × String) :=
  let keys := List.insertionSort strLeRel (q.map Prod.fst).dedup
  keys.flatMap fun k =>
    (List.insertionSort strLeRel ((q.filter (fun p => p.1 == k)).map Prod.snd)).map
      (fun v => (k, v))

/-- sortURLParams (cache.go): canonicalize the query of a URL in place. -/
def sortURLParams (u : URLQ) : URLQ := { u with query := canonQuery u.query }

/-- Response header map handed around by the middleware. -/
abbrev HeaderM := List (String × List String)

/-- http.Header.Get: first value of the entry for the name, \x22\x22 when absent. -/
def hdrGet (h : HeaderM) (name : String) : String :=
  match h.find? (fun p => p.1 == name) with
  | some (_, v :: _) => v
  | _ => ""

/-- http.Header.Set: replace the entry for the name with the single value. -/
def hdrSet (h : HeaderM) (name val : String) : HeaderM :=
  if h.any (fun p => p.1 == name) then
    h.map (fun p => if p.1 == name then (name, [val]) else p)
  else h ++ [(name, [val])]

/-- strings.Join(v, \x22,\x22) used when copying headers to the writer. -/
def joinComma (vs : List String) : String := String.intercalate "," vs

/-- The header-copy loops of the middleware:
`for k, v := range X { w.Header().Set(k, strings.Join(v, ...)) }`. -/
def writeHeaders (src : HeaderM) (w : HeaderM) : HeaderM :=
  src.foldl (fun acc p => hdrSet acc p.1 (joinComma p.2)) w

/-- Textual rendering of an expiration time for the Expires header (the HTTP
date format is abstracted). -/
def formatTime (t : Int) : String := toString t

/-- The cache Adapter interface (cache.go), over an adapter state type. -/
structure AdapterI (σ : Type) where
  get : σ → Nat → Option (List Int)
  set : σ → Nat → List Int → Int → σ
  release : σ → Nat → σ

/-- Client data structure for the HTTP cache middleware (cache.go). -/
structure Client where
  ttl : Int
  refreshKey : String
  skipCacheResponseHeader : String
  methods : List String
  writeExpiresHeader : Bool

/-- Client.cacheableMethod (cache.go). -/
def Client.cacheableMethod (c : Client) (m : String) : Bool := c.methods.contains m

/-- An inbound HTTP request: method, URL and optional body bytes. Reading the
body is modelled as always succeeding (the `io.ReadAll` error branch of the
middleware is not modelled). -/
structure Request where
  method : String
  url : URLQ
  body : Option (List Nat)

/-- The downstream handler's recorded output: status, headers, body. -/
structure DownResp where
  status : Int
  header : HeaderM
  body : List Int

/-- Observable outcome of one middleware invocation: final adapter state, the
response status/headers/body written to the real writer, and whether the
downstream handler was invoked. -/
structure MWOut (σ : Type) where
  state : σ
  nextCalled : Bool
  status : Int
  header : HeaderM
  body : List Int

/-- URL of the request after sortURLParams has canonicalized the query. -/
def sortedURL (r : Request) : URLQ := sortURLParams r.url

/-- The cache key as computed at the top of the middleware (cache.go):
FNV of the sorted URL, with the body folded in for a POST with a body. -/
def requestKey (r : Request) : Nat :=
  if r.method == "POST" && r.body.isSome then
    generateKeyWithBody (urlString (sortedURL r)) (r.body.getD [])
  else generateKey (urlString (sortedURL r))

/-- The miss continuation of the middleware (cache.go, from
`rec := httptest.NewRecorder()` to the end of the cacheable branch): run the
downstream handler against a recorder, consult the real writer's headers for
the skip-cache sentinel, store a fresh entry when allowed, then copy the
recorded headers, status and body to the real writer. -/
def missPath {σ : Type} (c : Client) (i : AdapterI σ) (next : Request → DownResp) (st : σ)
    (r : Request) (key : Nat) (wH : HeaderM) (now : Int) : MWOut σ :=
  let result := next r
  let statusCode := result.status
  let value := result.body
  let skip : Bool := hdrGet wH c.skipCacheResponseHeader != ""
  let expires := now + c.ttl
  let st1 :=
    if skip then st
    else if statusCode < 400 then
      i.set st key
        (Response.bytes
          { Value := value, Header := result.header, Expiration := expires,
            LastAccess := now, Frequency := 1 })
        expires
    else st
  let wH1 :=
    if skip then wH
    else if c.writeExpiresHeader then hdrSet wH "Expires" (formatTime expires) else wH
  let wH2 := writeHeaders result.header wH1
  { state := st1, nextCalled := true, status := statusCode, header := wH2, body := value }

/-- Client.Middleware (cache.go): the per-request control flow. `wH` is the
real response writer's header map as it stands when the middleware runs. -/
def Middleware {σ : Type} (c : Client) (i : AdapterI σ) (next : Request → DownResp) (st : σ)
    (r : Request) (wH : HeaderM) (now : Int) : MWOut σ :=
  if c.cacheableMethod r.method then
    let u1 := sortURLParams r.url
    let key := requestKey r
    let r1 : Request := { r with url := u1 }
    if u1.query.any (fun p => p.1 == c.refreshKey) then
      let u2 : URLQ := { u1 with query := u1.query.filter (fun p => !(p.1 == c.refreshKey)) }
      let key2 := generateKey (urlString u2)
      missPath c i next (i.release st key2) { r1 with url := u2 } key2 wH now
    else
      match i.get st key with
      | some b =>
        let resp := BytesToResponse b
        if resp.Expiration > now then
          let resp2 := { resp with LastAccess := now, Frequency := resp.Frequency + 1 }
          let st1 := i.set st key (Response.bytes resp2) resp.Expiration
          let wH1 := writeHeaders resp.Header wH
          let wH2 :=
            if c.writeExpiresHeader then hdrSet wH1 "Expires" (formatTime resp.Expiration)
            else wH1
          { state := st1, nextCalled := false, status := 200, header := wH2, body := resp.Value }
        else
          missPath c i next (i.release st key) r1 key wH now
      | none => missPath c i next st r1 key wH now
  else
    let result := next r
    { state := st, nextCalled := true, status := result.status, header := wH,
      body := result.body }

/-- In-memory mock of the Adapter interface over a plain association list
(the shape of the repository's own adapterMock test double). -/
def mockSet (st : Store) (k : Nat) (v : List Int) : Store :=
  if (storeGet st k).isSome then storeReplace st k v else storeInsert st k v

/-- Mock adapter built from the plain store operations. -/
def mockAdapter : AdapterI Store :=
  { get := storeGet, set := fun st k v _ => mockSet st k v, release := storeDelete }

/-- A payload decodes to an entry with lastAccess at or after the zero time
and frequency inside [0, 2147483647); under these bounds every eviction scan
selects a victim (provided lastAccess also precedes the scan time). -/
def goodPayload (b : List Int) : Prop :=
  0 ≤ (BytesToResponse b).LastAccess ∧ 0 ≤ (BytesToResponse b).Frequency ∧
    (BytesToResponse b).Frequency < 2147483647

instance (b : List Int) : Decidable (goodPayload b) := by
  unfold goodPayload
  infer_instance

/-- Generic strict-minimum scan (the LRU/LFU shape of the eviction loop):
accumulator is (selectedKey, best, sz, hit), an entry replaces the current
choice only when its measure is strictly smaller. -/
def scanMin (f : Nat × List Int → Int) :
    List (Nat × List Int) → Nat × Int × Int × Bool → Nat × Int × Int × Bool
  | [], acc => acc
  | e :: rest, acc =>
    if f e < acc.2.1 then scanMin f rest (e.1, f e, (e.2.length : Int), true)
    else scanMin f rest acc

/-- Generic later-or-equal maximum scan (the MRU/MFU shape of the eviction
loop): an entry replaces the current choice when its measure is greater than
or equal to the best so far. -/
def scanGe (f : Nat × List Int → Int) :
    List (Nat × List Int) → Nat × Int × Int × Bool → Nat × Int × Int × Bool
  | [], acc => acc
  | e :: rest, acc =>
    if f e ≥ acc.2.1 then scanGe f rest (e.1, f e, (e.2.length : Int), true)
    else scanGe f rest acc

/-- `v` is the first entry of `l` attaining the minimal measure: everything
before it is strictly larger and everything after it is no smaller. -/
def FirstMinOf (f : Nat × List Int → Int) (l : List (Nat × List Int)) (v : Nat × List Int) :
    Prop :=
  ∃ pre post, l = pre ++ v :: post ∧ (∀ e ∈ pre, f v < f e) ∧ (∀ e ∈ post, f v ≤ f e)

/-- `v` is the last entry of `l` attaining the maximal measure: everything
before it is no larger and everything after it is strictly smaller. -/
def LastMaxOf (f : Nat × List Int → Int) (l : List (Nat × List Int)) (v : Nat × List Int) :
    Prop :=
  ∃ pre post, l = pre ++ v :: post ∧ (∀ e ∈ pre, f e ≤ f v) ∧ (∀ e ∈ post, f e < f v)

/-- The victim dictated by the policy table of spec §4.2: LRU the first
entry with minimal lastAccess, MRU the last entry with maximal lastAccess,
LFU the first entry with minimal frequency, MFU the last entry with maximal
frequency. -/
def victimProp : Algorithm → List (Nat × List Int) → (Nat × List Int) → Prop
  | .LRU, l, v => FirstMinOf laP l v
  | .MRU, l, v => LastMaxOf laP l v
  | .LFU, l, v => FirstMinOf frP l v
  | .MFU, l, v => LastMaxOf frP l v

/-- Example client configuration used by concrete checks: ttl 60, refresh
parameter "refresh", skip-cache header "X-Skip-Cache". -/
def exClient : Client :=
  { ttl := 60, refreshKey := "refresh", skipCacheResponseHeader := "X-Skip-Cache",
    methods := ["GET", "POST"], writeExpiresHeader := false }

/-- Example downstream handler returning a plain 200 response. -/
def exNext : Request → DownResp :=
  fun _ => { status := 200, header := [("Content-Type", ["text/plain"])], body := [118, 49] }

/-- Example downstream handler whose response carries the skip-cache header. -/
def exNextSkip : Request → DownResp :=
  fun _ => { status := 200, header := [("X-Skip-Cache", ["1"])], body := [118] }

/-- Example GET request for /a with no query. -/
def exReqGet : Request := { method := "GET", url := { path := "/a", query := [] }, body := none }

/-- Example POST request for /a carrying a body, with the refresh parameter
present in the query. -/
def exReqPost : Request :=
  { method := "POST", url := { path := "/a", query := [("refresh", "1"), ("b", "2")] },
    body := some [7, 8] }

/-- Example stored entry that is still fresh at time 50. -/
def exRespFresh : Response :=
  { Value := [118], Header := [], Expiration := 100, LastAccess := 5, Frequency := 1 }

/-- Example stored entry whose expiration is exactly the lookup time 50. -/
def exRespExpired : Response :=
  { Value := [118], Header := [], Expiration := 50, LastAccess := 5, Frequency := 1 }

/-- Store holding the fresh example entry under the key of `exReqGet`. -/
def exStoreHit : Store := [(requestKey exReqGet, Response.bytes exRespFresh)]

/-- Store holding the boundary-expired example entry under the key of
`exReqGet`. -/
def exStoreExpired : Store := [(requestKey exReqGet, Response.bytes exRespExpired)]

theorem fmo_mem {f l v} (h : FirstMinOf f l v) : v ∈ l := by
  obtain ⟨pre, post, rfl, -, -⟩ := h
  simp

theorem lmo_mem {f l v} (h : LastMaxOf f l v) : v ∈ l := by
  obtain ⟨pre, post, rfl, -, -⟩ := h
  simp

theorem fmo_singleton (f : Nat × List Int → Int) (e : Nat × List Int) : FirstMinOf f [e] e :=
  ⟨[], [], rfl, by simp, by simp⟩

theorem lmo_singleton (f : Nat × List Int → Int) (e : Nat × List Int) : LastMaxOf f [e] e :=
  ⟨[], [], rfl, by simp, by simp⟩

theorem fmo_extend_lt {f p v} (e : Nat × List Int) (h : FirstMinOf f p v) (hlt : f e < f v) :
    FirstMinOf f (p ++ [e]) e := by
  obtain ⟨pre, post, rfl, hpre, hpost⟩ := h
  refine ⟨pre ++ v :: post, [], by simp, ?_, by simp⟩
  intro x hx
  rcases List.mem_append.mp hx with hx | hx
  · exact lt_trans hlt (hpre x hx)
  · rcases List.mem_cons.mp hx with rfl | hx
    · exact hlt
    · exact lt_of_lt_of_le hlt (hpost x hx)

theorem fmo_extend_ge {f p v} (e : Nat × List Int) (h : FirstMinOf f p v) (hge : f v ≤ f e) :
    FirstMinOf f (p ++ [e]) v := by
  obtain ⟨pre, post, rfl, hpre, hpost⟩ := h
  refine ⟨pre, post ++ [e], by simp, hpre, ?_⟩
  intro x hx
  rcases List.mem_append.mp hx with hx | hx
  · exact hpost x hx
  · rcases List.mem_singleton.mp hx with rfl
    exact hge

theorem lmo_extend_ge {f p v} (e : Nat × List Int) (h : LastMaxOf f p v) (hge : f v ≤ f e) :
    LastMaxOf f (p ++ [e]) e := by
  obtain ⟨pre, post, rfl, hpre, hpost⟩ := h
  refine ⟨pre ++ v :: post, [], by simp, ?_, by simp⟩
  intro x hx
  rcases List.mem_append.mp hx with hx | hx
  · exact le_trans (hpre x hx) hge
  · rcases List.mem_cons.mp hx with rfl | hx
    · exact hge
    · exact le_trans (le_of_lt (hpost x hx)) hge

theorem lmo_extend_lt {f p v} (e : Nat × List Int) (h : LastMaxOf f p v) (hlt : f e < f v) :
    LastMaxOf f (p ++ [e]) v := by
  obtain ⟨pre, post, rfl, hpre, hpost⟩ := h
  refine ⟨pre, post ++ [e], by simp, hpre, ?_⟩
  intro x hx
  rcases List.mem_append.mp hx with hx | hx
  · exact hpost x hx
  · rcases List.mem_singleton.mp hx with rfl
    exact hlt

theorem scanMin_go (f : Nat × List Int → Int) :
    ∀ (l p : List (Nat × List Int)) (v : Nat × List Int), FirstMinOf f p v →
      ∃ w, FirstMinOf f (p ++ l) w ∧
        scanMin f l (v.1, f v, (v.2.length : Int), true) = (w.1, f w, (w.2.length : Int), true)
  | [], p, v, h => ⟨v, by simpa using h, rfl⟩
  | e :: rest, p, v, h => by
    by_cases hc : f e < f v
    · obtain ⟨w, hw1, hw2⟩ := scanMin_go f rest (p ++ [e]) e (fmo_extend_lt e h hc)
      refine ⟨w, by simpa using hw1, ?_⟩
      simpa [scanMin, hc] using hw2
    · obtain ⟨w, hw1, hw2⟩ := scanMin_go f rest (p ++ [e]) v (fmo_extend_ge e h (le_of_not_lt hc))
      refine ⟨w, by simpa using hw1, ?_⟩
      simpa [scanMin, hc] using hw2

theorem scanGe_go (f : Nat × List Int → Int) :
    ∀ (l p : List (Nat × List Int)) (v : Nat × List Int), LastMaxOf f p v →
      ∃ w, LastMaxOf f (p ++ l) w ∧
        scanGe f l (v.1, f v, (v.2.length : Int), true) = (w.1, f w, (w.2.length : Int), true)
  | [], p, v, h => ⟨v, by simpa using h, rfl⟩
  | e :: rest, p, v, h => by
    by_cases hc : f v ≤ f e
    · obtain ⟨w, hw1, hw2⟩ := scanGe_go f rest (p ++ [e]) e (lmo_extend_ge e h hc)
      refine ⟨w, by simpa using hw1, ?_⟩
      simpa [scanGe, hc] using hw2
    · obtain ⟨w, hw1, hw2⟩ := scanGe_go f rest (p ++ [e]) v (lmo_extend_lt e h (lt_of_not_le hc))
      refine ⟨w, by simpa using hw1, ?_⟩
      have hc' : ¬ f e ≥ f v := hc
      simpa [scanGe, hc'] using hw2

theorem scanMin_spec (f : Nat × List Int → Int) (l : List (Nat × List Int)) (hne : l ≠ [])
    (b0 : Int) (hall : ∀ e ∈ l, f e < b0) (s0 : Nat) (z0 : Int) :
    ∃ w, FirstMinOf f l w ∧
      scanMin f l (s0, b0, z0, false) = (w.1, f w, (w.2.length : Int), true) := by
  match l with
  | [] => exact absurd rfl hne
  | e :: rest =>
    have hc : f e < b0 := hall e (by simp)
    obtain ⟨w, hw1, hw2⟩ := scanMin_go f rest [e] e (fmo_singleton f e)
    exact ⟨w, by simpa using hw1, by simpa [scanMin, hc] using hw2⟩

theorem scanGe_spec (f : Nat × List Int → Int) (l : List (Nat × List Int)) (hne : l ≠ [])
    (b0 : Int) (hall : ∀ e ∈ l, b0 ≤ f e) (s0 : Nat) (z0 : Int) :
    ∃ w, LastMaxOf f l w ∧
      scanGe f l (s0, b0, z0, false) = (w.1, f w, (w.2.length : Int), true) := by
  match l with
  | [] => exact absurd rfl hne
  | e :: rest =>
    have hc : f e ≥ b0 := hall e (by simp)
    obtain ⟨w, hw1, hw2⟩ := scanGe_go f rest [e] e (lmo_singleton f e)
    exact ⟨w, by simpa using hw1, by simpa [scanGe, hc] using hw2⟩

theorem foldl_evictStep_LRU (l : List (Nat × List Int)) :
    ∀ (s : Nat) (b fr z : Int) (h : Bool),
      l.foldl (evictStep .LRU) ⟨s, b, fr, z, h⟩ =
        ⟨(scanMin laP l (s, b, z, h)).1, (scanMin laP l (s, b, z, h)).2.1, fr,
          (scanMin laP l (s, b, z, h)).2.2.1, (scanMin laP l (s, b, z, h)).2.2.2⟩ := by
  induction l with
  | nil => intro s b fr z h; rfl
  | cons e rest ih =>
    intro s b fr z h
    by_cases hc : laP e < b
    · simpa [List.foldl_cons, evictStep, scanMin, hc] using ih e.1 (laP e) fr (e.2.length : Int) true
    · simpa [List.foldl_cons, evictStep, scanMin, hc] using ih s b fr z h

theorem foldl_evictStep_LFU (l : List (Nat × List Int)) :
    ∀ (s : Nat) (b fr z : Int) (h : Bool),
      l.foldl (evictStep .LFU) ⟨s, b, fr, z, h⟩ =
        ⟨(scanMin frP l (s, fr, z, h)).1, b, (scanMin frP l (s, fr, z, h)).2.1,
          (scanMin frP l (s, fr, z, h)).2.2.1, (scanMin frP l (s, fr, z, h)).2.2.2⟩ := by
  induction l with
  | nil => intro s b fr z h; rfl
  | cons e rest ih =>
    intro s b fr z h
    by_cases hc : frP e < fr
    · simpa [List.foldl_cons, evictStep, scanMin, hc] using ih e.1 b (frP e) (e.2.length : Int) true
    · simpa [List.foldl_cons, evictStep, scanMin, hc] using ih s b fr z h

theorem foldl_evictStep_MRU (l : List (Nat × List Int)) :
    ∀ (s : Nat) (b fr z : Int) (h : Bool),
      l.foldl (evictStep .MRU) ⟨s, b, fr, z, h⟩ =
        ⟨(scanGe laP l (s, b, z, h)).1, (scanGe laP l (s, b, z, h)).2.1, fr,
          (scanGe laP l (s, b, z, h)).2.2.1, (scanGe laP l (s, b, z, h)).2.2.2⟩ := by
  induction l with
  | nil => intro s b fr z h; rfl
  | cons e rest ih =>
    intro s b fr z h
    by_cases hc : b ≤ laP e
    · have hcode : laP e > b ∨ laP e = b := by
        rcases lt_or_eq_of_le hc with h' | h'
        · exact Or.inl h'
        · exact Or.inr h'.symm
      have hge : laP e ≥ b := hc
      simpa [List.foldl_cons, evictStep, scanGe, hcode, hge]
        using ih e.1 (laP e) fr (e.2.length : Int) true
    · have hcode : ¬ (laP e > b ∨ laP e = b) := by
        rintro (h' | h')
        · exact hc (le_of_lt h')
        · exact hc (le_of_eq h'.symm)
      have hge : ¬ laP e ≥ b := hc
      simpa [List.foldl_cons, evictStep, scanGe, hcode, hge] using ih s b fr z h

theorem foldl_evictStep_MFU (l : List (Nat × List Int)) :
    ∀ (s : Nat) (b fr z : Int) (h : Bool),
      l.foldl (evictStep .MFU) ⟨s, b, fr, z, h⟩ =
        ⟨(scanGe frP l (s, fr, z, h)).1, b, (scanGe frP l (s, fr, z, h)).2.1,
          (scanGe frP l (s, fr, z, h)).2.2.1, (scanGe frP l (s, fr, z, h)).2.2.2⟩ := by
  induction l with
  | nil => intro s b fr z h; rfl
  | cons e rest ih =>
    intro s b fr z h
    by_cases hc : frP e ≥ fr
    · simpa [List.foldl_cons, evictStep, scanGe, hc] using ih e.1 b (frP e) (e.2.length : Int) true
    · simpa [List.foldl_cons, evictStep, scanGe, hc] using ih s b fr z h

theorem parseNat_encoded (n : Nat) (rest : List Int) :
    parseNat ((n : Int) :: rest) = some (n, rest) := by
  simp [parseNat]

theorem parseToks_append (xs rest : List Int) :
    parseToks xs.length (xs ++ rest) = some (xs, rest) := by
  induction xs generalizing rest with
  | nil => simp [parseToks]
  | cons x xs ih => simp [parseToks, ih]

theorem parseStr_encoded (s : String) (rest : List Int) :
    parseStr (encStr s ++ rest) = some (s, rest) := by
  have hlen : s.length = s.data.length := rfl
  have hmap : (s.data.map (fun c => (c.toNat : Int))).length = s.data.length := by
    simp
  simp only [parseStr, encStr, List.cons_append, parseNat_encoded, Option.bind_eq_bind,
    Option.some_bind, hlen]
  rw [← hmap, parseToks_append]
  simp only [Option.some_bind, List.map_map]
  have h2 : (List.map ((fun i => Char.ofNat i.toNat) ∘ fun c => ((c.toNat : Int))) s.data)
      = List.map id s.data := by
    apply List.map_congr_left
    intro c _
    simp [Function.comp, Char.ofNat_toNat]
  rw [h2, List.map_id]

theorem parseStrList_encoded (l : List String) (rest : List Int) :
    parseStrList l.length (l.flatMap encStr ++ rest) = some (l, rest) := by
  induction l generalizing rest with
  | nil => simp [parseStrList]
  | cons s ss ih =>
    simp only [List.length_cons, List.flatMap_cons, List.append_assoc, parseStrList,
      Option.bind_eq_bind, parseStr_encoded, Option.some_bind, ih]

theorem parseHeaderPair_encoded (p : String × List String) (rest : List Int) :
    parseHeaderPair (encHeaderPair p ++ rest) = some (p, rest) := by
  simp only [parseHeaderPair, encHeaderPair, encStrList, List.append_assoc, List.cons_append,
    Option.bind_eq_bind, parseStr_encoded, Option.some_bind, parseNat_encoded,
    parseStrList_encoded]

theorem parseHeader_encoded (h : List (String × List String)) (rest : List Int) :
    parseHeader h.length (h.flatMap encHeaderPair ++ rest) = some (h, rest) := by
  induction h generalizing rest with
  | nil => simp [parseHeader]
  | cons p ps ih =>
    simp only [List.length_cons, List.flatMap_cons, List.append_assoc, parseHeader,
      Option.bind_eq_bind, parseHeaderPair_encoded, Option.some_bind, ih]

theorem parseResponse_bytes (r : Response) :
    parseResponse (Response.bytes r) = some (r, []) := by
  cases r with
  | mk v h e la fr =>
    simp only [parseResponse, Response.bytes, encHeader, List.cons_append, List.append_assoc,
      Option.bind_eq_bind, parseNat_encoded, Option.some_bind]
    rw [parseToks_append]
    simp only [Option.some_bind, List.cons_append, parseNat_encoded]
    rw [parseHeader_encoded]
    simp [parseTok]

/-- C8: decoding the encoding of any cache entry returns an entry equal to the
original in every field (value bytes, headers, expiration, lastAccess,
frequency), including an empty body and empty headers. -/
theorem decode_encode_roundtrip (r : Response) : BytesToResponse (Response.bytes r) = r := by
  simp [BytesToResponse, parseResponse_bytes]

theorem storeGet_eq_none_iff (st : Store) (key : Nat) :
    storeGet st key = none ↔ key ∉ st.map Prod.fst := by
  induction st with
  | nil => simp [storeGet]
  | cons e rest ih =>
    obtain ⟨k, v⟩ := e
    by_cases h : k = key
    · subst h
      simp [storeGet]
    · have h' : ¬ key = k := fun hk => h hk.symm
      simp [storeGet, h, h', ih]

theorem storeDelete_of_not_mem (st : Store) (key : Nat) (h : key ∉ st.map Prod.fst) :
    storeDelete st key = st := by
  induction st with
  | nil => rfl
  | cons e rest ih =>
    simp only [List.map_cons, List.mem_cons] at h
    push_neg at h
    have h1 : ¬ e.1 = key := fun hk => h.1 hk.symm
    have h2 := ih h.2
    simp only [storeDelete] at h2
    simp [storeDelete, List.filter_cons, h1, h2]

theorem storeDelete_subset (st : Store) (key : Nat) : ∀ x ∈ storeDelete st key, x ∈ st :=
  fun _ hx => (List.mem_filter.mp hx).1

theorem storeDelete_keys_subset (st : Store) (key k' : Nat) (h : k' ∉ st.map Prod.fst) :
    k' ∉ (storeDelete st key).map Prod.fst := by
  intro hmem
  apply h
  obtain ⟨x, hx, hx2⟩ := List.mem_map.mp hmem
  exact List.mem_map.mpr ⟨x, storeDelete_subset st key x hx, hx2⟩

theorem storeDelete_nodup (st : Store) (key : Nat) (h : storeNodup st) :
    storeNodup (storeDelete st key) :=
  List.Sublist.nodup (List.Sublist.map Prod.fst (List.filter_sublist st)) h

theorem storeDelete_length_mem (st : Store) (v : Nat × List Int) (hv : v ∈ st)
    (hnd : storeNodup st) : (storeDelete st v.1).length + 1 = st.length := by
  induction st with
  | nil => cases hv
  | cons e rest ih =>
    have hnd' : e.1 ∉ rest.map Prod.fst ∧ storeNodup rest := by
      simpa [storeNodup, List.nodup_cons] using hnd
    rcases List.mem_cons.mp hv with rfl | hv'
    · have hrest : storeDelete rest v.1 = rest := storeDelete_of_not_mem rest v.1 hnd'.1
      simp only [storeDelete] at hrest
      simp [storeDelete, List.filter_cons, hrest]
    · have hne : ¬ e.1 = v.1 := by
        intro hk
        exact hnd'.1 (hk ▸ List.mem_map.mpr ⟨v, hv', rfl⟩)
      simp only [storeDelete, List.filter_cons]
      have hcond : (!(e.1 = v.1)) = true := by simp [hne]
      simp only [hcond, if_pos, List.length_cons]
      have := ih hv' hnd'.2
      simp only [storeDelete] at this
      omega

theorem storeReplace_keys (st : Store) (key : Nat) (v : List Int) :
    (storeReplace st key v).map Prod.fst = st.map Prod.fst := by
  induction st with
  | nil => rfl
  | cons e rest ih =>
    by_cases h : e.1 = key
    · simp [storeReplace, h] at ih ⊢
      exact ih
    · simp [storeReplace, h] at ih ⊢
      exact ih

theorem storeReplace_length (st : Store) (key : Nat) (v : List Int) :
    (storeReplace st key v).length = st.length := by
  simp [storeReplace]

theorem storeReplace_mem (st : Store) (key : Nat) (v : List Int) :
    ∀ e ∈ storeReplace st key v, e ∈ st ∨ e.2 = v := by
  intro e he
  obtain ⟨x, hx, hx2⟩ := List.mem_map.mp he
  by_cases h : x.1 = key
  · right
    simp [h] at hx2
    rw [← hx2]
  · left
    simp [h] at hx2
    rwa [← hx2]

theorem victim_mem {alg : Algorithm} {l : List (Nat × List Int)} {v : Nat × List Int}
    (h : victimProp alg l v) : v ∈ l := by
  cases alg
  all_goals simp only [victimProp] at h
  · exact fmo_mem h
  · exact lmo_mem h
  · exact fmo_mem h
  · exact lmo_mem h

theorem evict_selects (a : Adapter) (now : Int) (hne : a.store ≠ [])
    (hgood : ∀ e ∈ a.store, 0 ≤ laP e ∧ laP e < now ∧ 0 ≤ frP e ∧ frP e < 2147483647) :
    ∃ v, victimProp a.algorithm a.store v ∧
      (a.evict now).store = storeDelete a.store v.1 := by
  cases halg : a.algorithm
  case LRU =>
    obtain ⟨w, hw1, hw2⟩ :=
      scanMin_spec laP a.store hne now (fun e he => (hgood e he).2.1) 0 0
    have hfold := foldl_evictStep_LRU a.store 0 now 2147483647 0 false
    rw [hw2] at hfold
    refine ⟨w, by simp [victimProp, hw1], ?_⟩
    simp [Adapter.evict, halg, scanInit, hfold]
  case MRU =>
    obtain ⟨w, hw1, hw2⟩ :=
      scanGe_spec laP a.store hne 0 (fun e he => (hgood e he).1) 0 0
    have hfold := foldl_evictStep_MRU a.store 0 0 2147483647 0 false
    rw [hw2] at hfold
    refine ⟨w, by simp [victimProp, hw1], ?_⟩
    simp [Adapter.evict, halg, scanInit, hfold]
  case LFU =>
    obtain ⟨w, hw1, hw2⟩ :=
      scanMin_spec frP a.store hne 2147483647 (fun e he => (hgood e he).2.2.2) 0 0
    have hfold := foldl_evictStep_LFU a.store 0 now 2147483647 0 false
    rw [hw2] at hfold
    refine ⟨w, by simp [victimProp, hw1], ?_⟩
    simp [Adapter.evict, halg, scanInit, hfold]
  case MFU =>
    obtain ⟨w, hw1, hw2⟩ :=
      scanGe_spec frP a.store hne 0 (fun e he => (hgood e he).2.2.1) 0 0
    have hfold := foldl_evictStep_MFU a.store 0 now 0 0 false
    rw [hw2] at hfold
    refine ⟨w, by simp [victimProp, hw1], ?_⟩
    simp [Adapter.evict, halg, scanInit, hfold]

theorem storageControl.del_max (s : storageControl) (v : Int) : (s.del v).max = s.max := by
  unfold storageControl.del
  split
  · split <;> rfl
  · rfl

theorem storageControl.add_max (s : storageControl) (v : Int) : (s.add v).max = s.max := by
  unfold storageControl.add
  split <;> rfl

theorem evict_capacity (a : Adapter) (now : Int) : (a.evict now).capacity = a.capacity := rfl

theorem evict_storage_max (a : Adapter) (now : Int) :
    (a.evict now).storage.max = a.storage.max := by
  simp only [Adapter.evict]
  split
  · exact storageControl.del_max _ _
  · rfl

theorem evict_store_subset (a : Adapter) (now : Int) :
    ∀ x ∈ (a.evict now).store, x ∈ a.store := by
  intro x hx
  simp only [Adapter.evict] at hx
  exact storeDelete_subset a.store _ x hx

theorem evict_keys_subset (a : Adapter) (now : Int) (k : Nat) (h : k ∉ a.store.map Prod.fst) :
    k ∉ (a.evict now).store.map Prod.fst := by
  intro hmem
  apply h
  obtain ⟨x, hx, hx2⟩ := List.mem_map.mp hmem
  exact List.mem_map.mpr ⟨x, evict_store_subset a now x hx, hx2⟩

theorem evict_store_nodup (a : Adapter) (now : Int) (h : storeNodup a.store) :
    storeNodup (a.evict now).store := by
  simp only [Adapter.evict]
  exact storeDelete_nodup a.store _ h

theorem evict_length_good (a : Adapter) (now : Int) (hne : a.store ≠ []) (hnd : storeNodup a.store)
    (hgood : ∀ e ∈ a.store, 0 ≤ laP e ∧ laP e < now ∧ 0 ≤ frP e ∧ frP e < 2147483647) :
    (a.evict now).store.length + 1 = a.store.length := by
  obtain ⟨v, h1, h2⟩ := evict_selects a now hne hgood
  rw [h2]
  exact storeDelete_length_mem a.store v (victim_mem h1) hnd

theorem evictLoop_inactive (fuel : Nat) (a : Adapter) (now n : Int) (h : a.storage.max ≤ 0) :
    evictLoop fuel a now n = some a := by
  have hs : a.storage.shouldEvict n = false := by
    simp [storageControl.shouldEvict, h]
  cases fuel <;> simp [evictLoop, hs]

theorem set_step (fuel : Nat) (a : Adapter) (key : Nat) (v : List Int) (now : Int)
    (hmax : a.storage.max ≤ 0) (hcap : 2 ≤ a.capacity)
    (hlen : (a.store.length : Int) ≤ a.capacity) (hnd : storeNodup a.store)
    (hstore : ∀ e ∈ a.store, goodPayload e.2 ∧ laP e < now) :
    ∃ a1, Adapter.set fuel a key v now = some a1 ∧
      a1.capacity = a.capacity ∧ a1.storage.max = a.storage.max ∧
      (a1.store.length : Int) ≤ a.capacity ∧ storeNodup a1.store ∧
      (∀ e ∈ a1.store, e ∈ a.store ∨ e.2 = v) := by
  by_cases hget : (storeGet a.store key).isSome
  · refine ⟨{ a with store := storeReplace a.store key v }, ?_, rfl, rfl, ?_, ?_, ?_⟩
    · simp [Adapter.set, hget]
    · simpa [storeReplace_length] using hlen
    · unfold storeNodup
      rw [storeReplace_keys]
      exact hnd
    · exact storeReplace_mem a.store key v
  · have hget' : storeGet a.store key = none := Option.not_isSome_iff_eq_none.mp hget
    have hkey : key ∉ a.store.map Prod.fst := (storeGet_eq_none_iff a.store key).mp hget'
    by_cases hlen_eq : (a.store.length : Int) = a.capacity
    · have hne : a.store ≠ [] := by
        intro h0
        rw [h0] at hlen_eq
        simp at hlen_eq
        omega
      have hgood : ∀ e ∈ a.store, 0 ≤ laP e ∧ laP e < now ∧ 0 ≤ frP e ∧ frP e < 2147483647 := by
        intro e he
        obtain ⟨⟨h1, h2, h3⟩, h4⟩ := hstore e he
        exact ⟨h1, h4, h2, h3⟩
      have hlen_evict := evict_length_good a now hne hnd hgood
      have hloop : evictLoop fuel (a.evict now) now (v.length : Int) = some (a.evict now) :=
        evictLoop_inactive fuel _ now _ (by rw [evict_storage_max]; exact hmax)
      refine ⟨Adapter.mk (a.evict now).capacity (a.evict now).algorithm
        (storeInsert (a.evict now).store key v)
        ((a.evict now).storage.add (v.length : Int)), ?_, ?_, ?_, ?_, ?_, ?_⟩
      · simp [Adapter.set, hget, hlen_eq, hloop]
      · rw [evict_capacity]
      · rw [storageControl.add_max, evict_storage_max]
      · simp only [storeInsert, List.length_cons, hlen_evict]
        rw [← hlen_eq]
      · have hkey' := evict_keys_subset a now key hkey
        simpa [storeNodup, storeInsert, List.nodup_cons, hkey']
          using evict_store_nodup a now hnd
      · intro e he
        rcases List.mem_cons.mp he with rfl | he'
        · right
          rfl
        · left
          exact evict_store_subset a now e he'
    · have hloop : evictLoop fuel a now (v.length : Int) = some a :=
        evictLoop_inactive fuel a now _ hmax
      refine ⟨Adapter.mk a.capacity a.algorithm (storeInsert a.store key v)
        (a.storage.add (v.length : Int)), ?_, rfl, ?_, ?_, ?_, ?_⟩
      · simp [Adapter.set, hget, hlen_eq, hloop]
      · rw [storageControl.add_max]
      · simp only [storeInsert, List.length_cons]
        push_cast
        omega
      · simpa [storeNodup, storeInsert, List.nodup_cons, hkey] using hnd
      · intro e he
        rcases List.mem_cons.mp he with rfl | he'
        · right
          rfl
        · left
          exact he'

theorem applyCalls_preserves (fuel : Nat) (calls : List SetCall) :
    ∀ a : Adapter, a.storage.max ≤ 0 → 2 ≤ a.capacity →
      (a.store.length : Int) ≤ a.capacity → storeNodup a.store →
      (∀ e ∈ a.store, goodPayload e.2 ∧ ∀ c ∈ calls, laP e < c.now) →
      (∀ c ∈ calls, goodPayload c.response ∧
        ∀ c' ∈ calls, (BytesToResponse c.response).LastAccess < c'.now) →
      ∃ a', applyCalls fuel calls a = some a' ∧ a'.capacity = a.capacity ∧
        (a'.store.length : Int) ≤ a.capacity := by
  induction calls with
  | nil =>
    intro a _ _ h3 _ _ _
    exact ⟨a, rfl, rfl, h3⟩
  | cons c cs ih =>
    intro a h1 h2 h3 h4 h5 h6
    obtain ⟨a1, hset, hcap, hmaxeq, hlen, hnd, hmem⟩ :=
      set_step fuel a c.key c.response c.now h1 h2 h3 h4
        (fun e he => ⟨(h5 e he).1, (h5 e he).2 c (by simp)⟩)
    have h5' : ∀ e ∈ a1.store, goodPayload e.2 ∧ ∀ c' ∈ cs, laP e < c'.now := by
      intro e he
      rcases hmem e he with he' | he'
      · exact ⟨(h5 e he').1, fun c' hc' => (h5 e he').2 c' (by simp [hc'])⟩
      · have hc := h6 c (by simp)
        refine ⟨he' ▸ hc.1, fun c' hc' => ?_⟩
        have := hc.2 c' (by simp [hc'])
        simpa [laP, he'] using this
    obtain ⟨a', happ, hcap', hlen'⟩ := ih a1 (by rw [hmaxeq]; exact h1) (by rw [hcap]; exact h2)
      (by rw [hcap]; exact hlen) hnd h5'
      (fun c' hc' => ⟨(h6 c' (by simp [hc'])).1,
        fun c'' hc'' => (h6 c' (by simp [hc'])).2 c'' (by simp [hc''])⟩)
    refine ⟨a', ?_, by rw [hcap', hcap], by rw [hcap] at hlen'; exact hlen'⟩
    simp [applyCalls, hset, happ]

/-- C1 (amended): for every sequence of `Set` calls on an in-memory adapter
constructed with an entry-count capacity (capacity at least 2, byte tracking
off) and an empty store, provided every payload of the sequence decodes to an
entry whose lastAccess is at or after the zero time and strictly before the
time of every call, and whose frequency lies in [0, 2147483647), the number
of stored entries never exceeds the capacity: a known key overwrites in place
with no capacity check, and a new key inserted at capacity is preceded by one
eviction. -/
theorem capacity_invariant (fuel : Nat) (alg : Algorithm) (cap : Int) (hcap : 2 ≤ cap)
    (calls : List SetCall)
    (hcalls : ∀ c ∈ calls, goodPayload c.response ∧
      ∀ c' ∈ calls, (BytesToResponse c.response).LastAccess < c'.now) :
    ∃ a', applyCalls fuel calls
        { capacity := cap, algorithm := alg, store := [], storage := { max := 0, cur := 0 } }
        = some a' ∧ (a'.store.length : Int) ≤ cap := by
  obtain ⟨a', h1, _, h3⟩ :=
    applyCalls_preserves fuel calls
      { capacity := cap, algorithm := alg, store := [], storage := { max := 0, cur := 0 } }
      (by simp) (by simpa using hcap) (by simp; omega) (by simp [storeNodup]) (by simp) hcalls
  exact ⟨a', h1, h3⟩

/-- Witness for C1: three `Set` calls with well-behaved payloads on a
capacity-2 LRU adapter stay within capacity. -/
theorem capacity_invariant_witness :
    ∃ a', applyCalls 1
        [⟨1, Response.bytes ⟨[], [], 100, 1, 1⟩, 10⟩,
         ⟨2, Response.bytes ⟨[], [], 100, 2, 1⟩, 11⟩,
         ⟨3, Response.bytes ⟨[], [], 100, 3, 1⟩, 12⟩]
        { capacity := 2, algorithm := .LRU, store := [], storage := { max := 0, cur := 0 } }
        = some a' ∧ (a'.store.length : Int) ≤ 2 :=
  capacity_invariant 1 .LRU 2 (by decide)
    [⟨1, Response.bytes ⟨[], [], 100, 1, 1⟩, 10⟩,
     ⟨2, Response.bytes ⟨[], [], 100, 2, 1⟩, 11⟩,
     ⟨3, Response.bytes ⟨[], [], 100, 3, 1⟩, 12⟩]
    (by decide)

/-- Counterexample to C1 as stated: on a capacity-2 LRU adapter, three `Set`
calls whose payloads decode to a lastAccess in the future of the call times
leave three entries in the store, because the eviction scan selects nothing
(every `r.LastAccess.Before(time.Now())` test fails, `hit` stays false, and
`delete(store, 0)` is a no-op). -/
theorem capacity_invariant_counterexample :
    (applyCalls 1
        [⟨1, Response.bytes ⟨[], [], 0, 1000, 1⟩, 10⟩,
         ⟨2, Response.bytes ⟨[], [], 0, 1000, 1⟩, 10⟩,
         ⟨3, Response.bytes ⟨[], [], 0, 1000, 1⟩, 10⟩]
        { capacity := 2, algorithm := .LRU, store := [], storage := { max := 0, cur := 0 } }).elim
      0 (fun a => a.store.length) = 3 := by
  decide

/-- C4 (amended): for every non-empty entry set with pairwise-distinct keys
whose entries decode to a lastAccess in [0, now) and a frequency in
[0, 2147483647), the eviction scan selects exactly the victim dictated by the
configured policy per the spec table — LRU the first entry attaining the
minimal lastAccess, MRU the last entry attaining the maximal lastAccess, LFU
the first entry attaining the minimal frequency, MFU the last entry attaining
the maximal frequency — and exactly one entry is removed. -/
theorem evict_policy_correct (a : Adapter) (now : Int) (hne : a.store ≠ [])
    (hnd : storeNodup a.store)
    (hgood : ∀ e ∈ a.store, 0 ≤ laP e ∧ laP e < now ∧ 0 ≤ frP e ∧ frP e < 2147483647) :
    ∃ v, v ∈ a.store ∧ victimProp a.algorithm a.store v ∧
      (a.evict now).store = storeDelete a.store v.1 ∧
      (a.evict now).store.length + 1 = a.store.length := by
  obtain ⟨v, h1, h2⟩ := evict_selects a now hne hgood
  have hm := victim_mem h1
  refine ⟨v, hm, h1, h2, ?_⟩
  rw [h2]
  exact storeDelete_length_mem a.store v hm hnd

/-- Witness for C4: a three-entry LRU store with distinct lastAccess values. -/
theorem evict_policy_correct_witness :
    ∃ v, v ∈ (Adapter.mk 3 .LRU
        [(1, Response.bytes ⟨[], [], 50, 30, 5⟩),
         (2, Response.bytes ⟨[], [], 50, 10, 3⟩),
         (3, Response.bytes ⟨[], [], 50, 20, 4⟩)] ⟨0, 0⟩).store ∧
      victimProp .LRU
        [(1, Response.bytes ⟨[], [], 50, 30, 5⟩),
         (2, Response.bytes ⟨[], [], 50, 10, 3⟩),
         (3, Response.bytes ⟨[], [], 50, 20, 4⟩)] v ∧
      ((Adapter.mk 3 .LRU
        [(1, Response.bytes ⟨[], [], 50, 30, 5⟩),
         (2, Response.bytes ⟨[], [], 50, 10, 3⟩),
         (3, Response.bytes ⟨[], [], 50, 20, 4⟩)] ⟨0, 0⟩).evict 40).store =
        storeDelete
          [(1, Response.bytes ⟨[], [], 50, 30, 5⟩),
           (2, Response.bytes ⟨[], [], 50, 10, 3⟩),
           (3, Response.bytes ⟨[], [], 50, 20, 4⟩)] v.1 ∧
      (((Adapter.mk 3 .LRU
        [(1, Response.bytes ⟨[], [], 50, 30, 5⟩),
         (2, Response.bytes ⟨[], [], 50, 10, 3⟩),
         (3, Response.bytes ⟨[], [], 50, 20, 4⟩)] ⟨0, 0⟩).evict 40).store).length + 1 =
        ([(1, Response.bytes ⟨[], [], 50, 30, 5⟩),
          (2, Response.bytes ⟨[], [], 50, 10, 3⟩),
          (3, Response.bytes ⟨[], [], 50, 20, 4⟩)] : Store).length :=
  evict_policy_correct
    (Adapter.mk 3 .LRU
      [(1, Response.bytes ⟨[], [], 50, 30, 5⟩),
       (2, Response.bytes ⟨[], [], 50, 10, 3⟩),
       (3, Response.bytes ⟨[], [], 50, 20, 4⟩)] ⟨0, 0⟩)
    40 (by decide) (by decide) (by decide)

/-- Counterexample to C4 as stated: a non-empty LRU store whose single entry
has a lastAccess in the future of the eviction time loses no entry at all —
the scan selects nothing and `delete(store, 0)` is a no-op — contradicting
that exactly one entry is removed per eviction. -/
theorem evict_policy_counterexample :
    ((Adapter.mk 2 .LRU [(1, Response.bytes ⟨[], [], 0, 1000, 1⟩)] ⟨0, 0⟩).evict 10).store
        = [(1, Response.bytes ⟨[], [], 0, 1000, 1⟩)] ∧
      ([(1, Response.bytes ⟨[], [], 0, 1000, 1⟩)] : Store) ≠ [] := by
  constructor
  · decide
  · decide

/-- C9: a `Set` whose key is already present replaces the stored bytes for
that key in place and performs no eviction check: the resulting adapter is
the original with only the store entry for that key replaced — in particular
the byte-size counter still reflects the old payload's length. -/
theorem set_existing_key (fuel : Nat) (a : Adapter) (key : Nat) (v : List Int) (now : Int)
    (h : (storeGet a.store key).isSome = true) :
    Adapter.set fuel a key v now = some { a with store := storeReplace a.store key v } := by
  simp [Adapter.set, h]

/-- Witness for C9: overwriting key 5 (old payload length 3, new length 1)
keeps the byte counter at 3. -/
theorem set_existing_key_witness :
    Adapter.set 0 (Adapter.mk 2 .LRU [(5, [1, 2, 3])] ⟨10, 3⟩) 5 [9] 0
        = some { (Adapter.mk 2 .LRU [(5, [1, 2, 3])] ⟨10, 3⟩) with
            store := storeReplace [(5, [1, 2, 3])] 5 [9] } :=
  set_existing_key 0 (Adapter.mk 2 .LRU [(5, [1, 2, 3])] ⟨10, 3⟩) 5 [9] 0 (by decide)

theorem evictLoop_oversized (fuel : Nat) :
    evictLoop fuel (Adapter.mk 0 .LRU [] ⟨10, 0⟩) 100 11 = none := by
  induction fuel with
  | zero => decide
  | succ n ih =>
    have hevict : (Adapter.mk 0 .LRU [] ⟨10, 0⟩).evict 100 = Adapter.mk 0 .LRU [] ⟨10, 0⟩ := by
      decide
    have hs : (Adapter.mk 0 .LRU [] ⟨10, 0⟩ : Adapter).storage.shouldEvict 11 = true := by
      decide
    simp [evictLoop, hs, hevict, ih]

/-- C5 is false of the code: a `Set` whose payload length alone exceeds the
byte budget never terminates. On an adapter with byte budget 10 and an empty
store, `Set` of an 11-byte payload loops forever: `shouldEvict` stays true
while `evict` on the empty store removes nothing, so no amount of fuel makes
the loop finish. The unused `canCache` guard in the source is the intended
check for this situation. -/
theorem set_oversized_spins (fuel : Nat) :
    Adapter.set fuel (Adapter.mk 0 .LRU [] ⟨10, 0⟩) 1 (List.replicate 11 7) 100 = none := by
  have hevict : (Adapter.mk 0 .LRU [] ⟨10, 0⟩).evict 100 = Adapter.mk 0 .LRU [] ⟨10, 0⟩ := by
    decide
  have hloop := evictLoop_oversized fuel
  simp [Adapter.set, storeGet, hevict, hloop]

/-- C2: for every request whose computed key maps to a stored entry whose
expiration is strictly in the future, the middleware serves the stored value
as the response body, re-stores the entry with lastAccess set to now and
frequency incremented by one using the unchanged expiration, and does not
invoke the downstream handler. -/
theorem middleware_hit {σ : Type} (c : Client) (i : AdapterI σ) (next : Request → DownResp)
    (st : σ) (r : Request) (wH : HeaderM) (now : Int) (b : List Int)
    (hm : c.cacheableMethod r.method = true)
    (hr : ((sortURLParams r.url).query.any (fun p => p.1 == c.refreshKey)) = false)
    (hg : i.get st (requestKey r) = some b)
    (he : (BytesToResponse b).Expiration > now) :
    Middleware c i next st r wH now =
      { state := i.set st (requestKey r)
          (Response.bytes { BytesToResponse b with
            LastAccess := now
            Frequency := (BytesToResponse b).Frequency + 1 })
          (BytesToResponse b).Expiration,
        nextCalled := false,
        status := 200,
        header :=
          if c.writeExpiresHeader then
            hdrSet (writeHeaders (BytesToResponse b).Header wH) "Expires"
              (formatTime (BytesToResponse b).Expiration)
          else writeHeaders (BytesToResponse b).Header wH,
        body := (BytesToResponse b).Value } := by
  simp [Middleware, hm, hr, hg, he]

/-- Witness for C2: a fresh entry under the GET key is served from the store,
the downstream handler is not called, and the entry is re-stored with
lastAccess 50, frequency 2 and the same expiration 100. -/
theorem middleware_hit_witness :
    (Middleware exClient mockAdapter exNext exStoreHit exReqGet [] 50).nextCalled = false ∧
    (Middleware exClient mockAdapter exNext exStoreHit exReqGet [] 50).body = [118] ∧
    (Middleware exClient mockAdapter exNext exStoreHit exReqGet [] 50).state =
      mockAdapter.set exStoreHit (requestKey exReqGet)
        (Response.bytes { Value := [118], Header := [], Expiration := 100, LastAccess := 50, Frequency := 2 }) 100 := by
  have h := middleware_hit exClient mockAdapter exNext exStoreHit exReqGet [] 50
    (Response.bytes exRespFresh) (by decide) (by decide) (by decide) (by decide)
  rw [h]
  refine ⟨rfl, by decide, by decide⟩

/-- C3: an entry whose expiration is at or before the lookup time is never
served as a hit — the middleware releases the key and proceeds exactly as the
miss continuation, invoking the downstream handler — while an entry whose
expiration is strictly in the future is served as a hit without invoking the
downstream handler. -/
theorem expiry_boundary {σ : Type} (c : Client) (i : AdapterI σ) (next : Request → DownResp)
    (st : σ) (r : Request) (wH : HeaderM) (now : Int) (b : List Int)
    (hm : c.cacheableMethod r.method = true)
    (hr : ((sortURLParams r.url).query.any (fun p => p.1 == c.refreshKey)) = false)
    (hg : i.get st (requestKey r) = some b) :
    ((BytesToResponse b).Expiration ≤ now →
      Middleware c i next st r wH now =
        missPath c i next (i.release st (requestKey r)) { r with url := sortURLParams r.url }
          (requestKey r) wH now ∧
      (Middleware c i next st r wH now).nextCalled = true) ∧
    (now < (BytesToResponse b).Expiration →
      (Middleware c i next st r wH now).nextCalled = false ∧
      (Middleware c i next st r wH now).body = (BytesToResponse b).Value) := by
  constructor
  · intro hexp
    have he : ¬ (BytesToResponse b).Expiration > now := not_lt.mpr hexp
    constructor
    · simp [Middleware, hm, hr, hg, he]
    · simp [Middleware, hm, hr, hg, he, missPath]
  · intro hexp
    have he : (BytesToResponse b).Expiration > now := hexp
    constructor
    · simp [Middleware, hm, hr, hg, he]
    · simp [Middleware, hm, hr, hg, he]

/-- Witness for C3: with the stored expiration equal to the lookup time 50
the entry is not served (the downstream handler runs); re-running one second
earlier, at time 49, it is served as a hit. -/
theorem expiry_boundary_witness :
    (Middleware exClient mockAdapter exNext exStoreExpired exReqGet [] 50).nextCalled = true ∧
    (Middleware exClient mockAdapter exNext exStoreExpired exReqGet [] 49).nextCalled = false := by
  have h50 := expiry_boundary exClient mockAdapter exNext exStoreExpired exReqGet [] 50
    (Response.bytes exRespExpired) (by decide) (by decide) (by decide)
  have h49 := expiry_boundary exClient mockAdapter exNext exStoreExpired exReqGet [] 49
    (Response.bytes exRespExpired) (by decide) (by decide) (by decide)
  exact ⟨(h50.1 (by decide)).2, (h49.2 (by decide)).1⟩

/-- C10: when the refresh-trigger query parameter is present, the middleware
recomputes the cache key from the stripped URL alone — discarding the
body-aware key computed for a POST with a body — and both the forced release
and the subsequent miss continuation use that body-independent key. -/
theorem refresh_key_ignores_body {σ : Type} (c : Client) (i : AdapterI σ)
    (next : Request → DownResp) (st : σ) (r : Request) (wH : HeaderM) (now : Int)
    (_hpost : r.method = "POST") (_hbody : r.body.isSome = true)
    (hm : c.cacheableMethod r.method = true)
    (hr : ((sortURLParams r.url).query.any (fun p => p.1 == c.refreshKey)) = true) :
    Middleware c i next st r wH now =
      missPath c i next
        (i.release st (generateKey (urlString
          { sortURLParams r.url with
            query := (sortURLParams r.url).query.filter (fun p => !(p.1 == c.refreshKey)) })))
        { r with url :=
          { sortURLParams r.url with
            query := (sortURLParams r.url).query.filter (fun p => !(p.1 == c.refreshKey)) } }
        (generateKey (urlString
          { sortURLParams r.url with
            query := (sortURLParams r.url).query.filter (fun p => !(p.1 == c.refreshKey)) }))
        wH now := by
  simp [Middleware, hm, hr]

/-- Witness for C10: a POST with body [7, 8] and the refresh parameter in the
query releases and repopulates under the key of the stripped URL. -/
theorem refresh_key_ignores_body_witness :
    Middleware exClient mockAdapter exNext [] exReqPost [] 50 =
      missPath exClient mockAdapter exNext
        (mockAdapter.release [] (generateKey (urlString
          { sortURLParams exReqPost.url with
            query := (sortURLParams exReqPost.url).query.filter
              (fun p => !(p.1 == exClient.refreshKey)) })))
        { exReqPost with url :=
          { sortURLParams exReqPost.url with
            query := (sortURLParams exReqPost.url).query.filter
              (fun p => !(p.1 == exClient.refreshKey)) } }
        (generateKey (urlString
          { sortURLParams exReqPost.url with
            query := (sortURLParams exReqPost.url).query.filter
              (fun p => !(p.1 == exClient.refreshKey)) }))
        [] 50 :=
  refresh_key_ignores_body exClient mockAdapter exNext [] exReqPost [] 50
    rfl rfl (by decide) (by decide)

/-- C7 fails on the code: the downstream response of `exNextSkip` carries the
configured skip-cache header, yet the middleware stores the fresh entry,
because the skip check reads the real response writer's headers (`w.Header()`,
here empty) instead of the recorder that captured the downstream response. -/
theorem skip_header_ignored :
    hdrGet (exNextSkip exReqGet).header exClient.skipCacheResponseHeader = "1" ∧
    (Middleware exClient mockAdapter exNextSkip [] exReqGet [] 50).state ≠ [] := by
  constructor
  · decide
  · decide

theorem charListLe_total : ∀ a b : List Char, charListLe a b = true ∨ charListLe b a = true
  | [], _ => Or.inl rfl
  | _ :: _, [] => Or.inr rfl
  | c :: cs, d :: ds => by
    rcases Nat.lt_trichotomy c.toNat d.toNat with h | h | h
    · left
      simp [charListLe, h]
    · have h1 : ¬ c.toNat < d.toNat := by omega
      have h2 : ¬ d.toNat < c.toNat := by omega
      rcases charListLe_total cs ds with ih | ih
      · left
        simp [charListLe, h1, h2, ih]
      · right
        simp [charListLe, h1, h2, ih]
    · right
      simp [charListLe, h]

theorem charListLe_trans :
    ∀ a b c : List Char, charListLe a b = true → charListLe b c = true → charListLe a c = true
  | [], _, _, _, _ => rfl
  | _ :: _, [], _, h1, _ => by simp [charListLe] at h1
  | _ :: _, _ :: _, [], _, h2 => by simp [charListLe] at h2
  | x :: xs, y :: ys, z :: zs, h1, h2 => by
    rcases Nat.lt_trichotomy x.toNat y.toNat with hxy | hxy | hxy
    · rcases Nat.lt_trichotomy y.toNat z.toNat with hyz | hyz | hyz
      · have hxz : x.toNat < z.toNat := lt_trans hxy hyz
        simp [charListLe, hxz]
      · have hxz : x.toNat < z.toNat := hyz ▸ hxy
        simp [charListLe, hxz]
      · simp [charListLe, Nat.lt_asymm hyz, hyz] at h2
    · rcases Nat.lt_trichotomy y.toNat z.toNat with hyz | hyz | hyz
      · have hxz : x.toNat < z.toNat := hxy ▸ hyz
        simp [charListLe, hxz]
      · have hxz : x.toNat = z.toNat := hxy.trans hyz
        have h1' : charListLe xs ys = true := by
          simp [charListLe, hxy, Nat.lt_irrefl] at h1
          exact h1
        have h2' : charListLe ys zs = true := by
          simp [charListLe, hyz, Nat.lt_irrefl] at h2
          exact h2
        have hxz1 : ¬ x.toNat < z.toNat := by omega
        have hxz2 : ¬ z.toNat < x.toNat := by omega
        simp [charListLe, hxz1, hxz2, charListLe_trans xs ys zs h1' h2']
      · simp [charListLe, Nat.lt_asymm hyz, hyz] at h2
    · simp [charListLe, Nat.lt_asymm hxy, hxy] at h1

theorem charListLe_antisymm :
    ∀ a b : List Char, charListLe a b = true → charListLe b a = true → a = b
  | [], [], _, _ => rfl
  | [], _ :: _, _, h2 => by simp [charListLe] at h2
  | _ :: _, [], h1, _ => by simp [charListLe] at h1
  | x :: xs, y :: ys, h1, h2 => by
    rcases Nat.lt_trichotomy x.toNat y.toNat with h | h | h
    · simp [charListLe, Nat.lt_asymm h, h] at h2
    · have hx : x = y := Char.ext (UInt32.ext h)
      have h1' : charListLe xs ys = true := by
        simp [charListLe, h, Nat.lt_irrefl] at h1
        exact h1
      have h2' : charListLe ys xs = true := by
        simp [charListLe, h, Nat.lt_irrefl] at h2
        exact h2
      rw [hx, charListLe_antisymm xs ys h1' h2']
    · simp [charListLe, Nat.lt_asymm h, h] at h1

instance : IsTotal String strLeRel :=
  ⟨fun a b => charListLe_total a.data b.data⟩

instance : IsTrans String strLeRel :=
  ⟨fun a b c h1 h2 => charListLe_trans a.data b.data c.data h1 h2⟩

instance : IsAntisymm String strLeRel :=
  ⟨fun a b h1 h2 => by
    have hd : a.data = b.data := charListLe_antisymm a.data b.data h1 h2
    cases a
    cases b
    exact congrArg String.mk hd⟩

theorem insertionSort_eq_of_perm (l1 l2 : List String) (h : l1.Perm l2) :
    List.insertionSort strLeRel l1 = List.insertionSort strLeRel l2 :=
  List.eq_of_perm_of_sorted
    ((List.perm_insertionSort strLeRel l1).trans
      (h.trans (List.perm_insertionSort strLeRel l2).symm))
    (List.sorted_insertionSort strLeRel l1) (List.sorted_insertionSort strLeRel l2)

theorem canonQuery_perm (q1 q2 : List (String × String)) (h : q1.Perm q2) :
    canonQuery q1 = canonQuery q2 := by
  unfold canonQuery
  have hkeys : List.insertionSort strLeRel (q1.map Prod.fst).dedup =
      List.insertionSort strLeRel (q2.map Prod.fst).dedup :=
    insertionSort_eq_of_perm _ _ (h.map Prod.fst).dedup
  rw [hkeys]
  refine List.flatMap_congr ?_
  intro k _
  rw [insertionSort_eq_of_perm _ _ ((h.filter (fun p => p.1 == k)).map Prod.snd)]

/-- C6: two request URLs that differ only in the order of their query
parameters (repeated names included) receive identical 64-bit keys, because
sortURLParams sorts parameters by name and, within a name, by value before
the URL string is hashed. -/
theorem key_query_order_independent (path : String) (q1 q2 : List (String × String))
    (h : q1.Perm q2) :
    generateKey (urlString (sortURLParams { path := path, query := q1 })) =
      generateKey (urlString (sortURLParams { path := path, query := q2 })) := by
  have hc : canonQuery q1 = canonQuery q2 := canonQuery_perm q1 q2 h
  simp [sortURLParams, urlString, hc]

/-- Witness for C6: /x?b=2&a=1&b=1 and /x?a=1&b=1&b=2 hash to the same key. -/
theorem key_query_order_independent_witness :
    generateKey (urlString (sortURLParams
        { path := "/x", query := [("b", "2"), ("a", "1"), ("b", "1")] })) =
      generateKey (urlString (sortURLParams
        { path := "/x", query := [("a", "1"), ("b", "1"), ("b", "2")] })) :=
  key_query_order_independent "/x" [("b", "2"), ("a", "1"), ("b", "1")]
    [("a", "1"), ("b", "1"), ("b", "2")] (by decide)
